import Mathlib

/-!
Verification development for the arkiv archive format implementation
(Go package `arkivformat`).

Byte strings are modelled as `List Nat` (each element an octet value).
Go functions are shallowly embedded as executable Lean definitions that
mirror the source line by line:

* `escapeForIndex`, `parseIndexLine`, `Index.serialize`, `computeNameHash`
  come from `index.go` (note: the checked-in `index.go` stores its string
  literals with one level of backslash escaping removed; the definitions
  here follow the doc comments of the source, which spell the substitution
  rules out unambiguously: backslash becomes double backslash, then double
  quote becomes backslash-quote),
* `matchesPrefix`, the listing pass come from the listing/CLI file,
* `toOutPath`, `Extract`'s member walk come from `extract.go`,
* the `Create` per-path loop comes from `create.go`,
* `cbcPKCS7Writer` / `cbcPKCS7Reader` come from the cipher file.

The SHA-512/256 digest and the AES-256 block permutation are modelled as
parameters (`H`, respectively an abstract block function and its inverse):
every theorem below is either parametric in them or instantiates them with
a concrete permutation where only the surrounding (fully modelled) logic is
at stake.  Filesystem actions of the extractor are modelled as an explicit
effect trace.
-/

/-- Go `strings.ReplaceAll(s, old, new)` specialised to a single-byte `old`,
which is the only shape the sources use: every occurrence of byte `c` is
replaced by the byte string `rep`. -/
def replaceChar (c : Nat) (rep : List Nat) : List Nat → List Nat
  | [] => []
  | a :: s => (if a = c then rep else [a]) ++ replaceChar c rep s

/-- Byte values used by the escaping rules. -/
def bsByte : Nat := 92

/-- The double-quote byte. -/
def dqByte : Nat := 34

/-- `escapeForIndex` from `index.go`: replace each backslash with two
backslashes, then each double quote with backslash-quote; the quoted form
wraps the result in double quotes.  Returns `(quoted, rawBetween)`. -/
def escapeForIndex (path : List Nat) : List Nat × List Nat :=
  let r := replaceChar bsByte [bsByte, bsByte] path
  let r := replaceChar dqByte [bsByte, dqByte] r
  (dqByte :: r ++ [dqByte], r)

/-- Specification-side escaping (§4.3 of the spec): a single left-to-right
pass that maps a backslash to two backslashes, a double quote to
backslash-quote, and any other byte to itself. -/
def escSpec (path : List Nat) : List Nat :=
  path.flatMap fun a =>
    if a = bsByte then [bsByte, bsByte]
    else if a = dqByte then [bsByte, dqByte]
    else [a]

/-- The two sequential `ReplaceAll` passes of `escapeForIndex` agree with
the one-pass character map of the spec. -/
theorem escapeForIndex_raw_eq_escSpec (path : List Nat) :
    (escapeForIndex path).2 = escSpec path := by
  show replaceChar dqByte [bsByte, dqByte] (replaceChar bsByte [bsByte, bsByte] path)
      = escSpec path
  induction path with
  | nil => rfl
  | cons a s ih =>
    by_cases h1 : a = bsByte
    · simp [replaceChar, escSpec, h1, bsByte, dqByte] at ih ⊢
      exact ih
    · by_cases h2 : a = dqByte
      · simp [replaceChar, escSpec, h1, h2, bsByte, dqByte] at ih ⊢
        exact ih
      · simp [replaceChar, escSpec, h1, h2] at ih ⊢
        exact ih

/-- Lowercase hex digit for a value below 16 (`encoding/hex`). -/
def hexDigit (n : Nat) : Nat :=
  if n < 10 then 48 + n else 87 + n

/-- `hex.EncodeToString`: every byte becomes two lowercase hex digits. -/
def toHex (bytes : List Nat) : List Nat :=
  bytes.flatMap fun b => [hexDigit (b / 16), hexDigit (b % 16)]

/-- `computeNameHash` from `index.go`: lowercase hex of
`H(prefixB64 ++ pathRaw)`; `H` is the abstract SHA-512/256.  The path is
hashed exactly as stored, no unescaping. -/
def computeNameHash (H : List Nat → List Nat) (prefixB64 pathRaw : List Nat) : List Nat :=
  toHex (H (prefixB64 ++ pathRaw))

/-- ASCII bytes of `"meta/"`. -/
def metaDirBytes : List Nat := [109, 101, 116, 97, 47]

/-- ASCII bytes of `".tar.zst.aes"`. -/
def metaExtBytes : List Nat := [46, 116, 97, 114, 46, 122, 115, 116, 46, 97, 101, 115]

/-- ASCII bytes of `"data/"`. -/
def dataDirBytes : List Nat := [100, 97, 116, 97, 47]

/-- ASCII bytes of `".zst.aes"`. -/
def dataExtBytes : List Nat := [46, 122, 115, 116, 46, 97, 101, 115]

/-- Member name `meta/<name_hash>.tar.zst.aes` as built in `create.go` and
`extract.go` (`filepath.Join("meta", hName+".tar.zst.aes")`; the join is
plain concatenation for these clean components). -/
def metaMemberName (H : List Nat → List Nat) (prefixB64 pathRaw : List Nat) : List Nat :=
  metaDirBytes ++ computeNameHash H prefixB64 pathRaw ++ metaExtBytes

/-- Member name `data/<data_hash>.zst.aes`. -/
def dataMemberName (hashData : List Nat) : List Nat :=
  dataDirBytes ++ hashData ++ dataExtBytes

/-- One line of the textual index (`IndexEntry` in `index.go`): `pathRaw` is
the exact byte substring between the quotes, `hashData` the lowercase hex
data hash (empty for entries without one), `quoted` the `"<escaped>"` form. -/
structure IndexEntry where
  pathRaw : List Nat
  hashData : List Nat
  quoted : List Nat
deriving DecidableEq, Repr

/-- Go `strings.ToLower` restricted to ASCII, which is all the sources ever
feed it (hex digits). -/
def toLowerAscii (s : List Nat) : List Nat :=
  s.map fun c => if 65 ≤ c ∧ c ≤ 90 then c + 32 else c

/-- The serialized line of one entry (`Index.Serialize`, first half of the
loop body): the quoted form, plus `"=" ++ strings.ToLower(hash)` when the
entry has a data hash. -/
def lineOf (e : IndexEntry) : List Nat :=
  if e.hashData ≠ [] then e.quoted ++ [61] ++ toLowerAscii e.hashData else e.quoted

/-- First-occurrence deduplication, as performed by the `seen` map in
`Index.Serialize` while collecting lines. -/
def dedupFirst : List (List Nat) → List (List Nat) → List (List Nat)
  | [], _ => []
  | l :: ls, seen => if l ∈ seen then dedupFirst ls seen else l :: dedupFirst ls (l :: seen)

/-- Unsigned byte-wise lexicographic `≤` on byte strings: the order induced
by Go's `bytes.Compare`. -/
def lexLe : List Nat → List Nat → Bool
  | [], _ => true
  | _ :: _, [] => false
  | a :: as, b :: bs => if a < b then true else if b < a then false else lexLe as bs

/-- The propositional form of `lexLe`. -/
def LexLe (a b : List Nat) : Prop := lexLe a b = true

instance : DecidableRel LexLe := fun a b => by unfold LexLe; infer_instance

theorem lexLe_refl (a : List Nat) : lexLe a a = true := by
  induction a with
  | nil => rfl
  | cons x xs ih => simp [lexLe, ih]

theorem lexLe_total (a b : List Nat) : lexLe a b = true ∨ lexLe b a = true := by
  induction a generalizing b with
  | nil => left; rfl
  | cons x xs ih =>
    cases b with
    | nil => right; rfl
    | cons y ys =>
      rcases Nat.lt_trichotomy x y with h | h | h
      · left; simp [lexLe, h]
      · subst h
        rcases ih ys with h' | h'
        · left; simp [lexLe, h', Nat.lt_irrefl]
        · right; simp [lexLe, h', Nat.lt_irrefl]
      · right; simp [lexLe, h]

theorem lexLe_antisymm {a b : List Nat} (hab : lexLe a b = true)
    (hba : lexLe b a = true) : a = b := by
  induction a generalizing b with
  | nil =>
    cases b with
    | nil => rfl
    | cons y ys => simp [lexLe] at hba
  | cons x xs ih =>
    cases b with
    | nil => simp [lexLe] at hab
    | cons y ys =>
      rcases Nat.lt_trichotomy x y with h | h | h
      · simp [lexLe, h, Nat.lt_asymm h] at hba
      · subst h
        simp [lexLe, Nat.lt_irrefl] at hab hba
        rw [ih hab hba]
      · simp [lexLe, h, Nat.lt_asymm h] at hab

theorem lexLe_trans {a b c : List Nat} (hab : lexLe a b = true)
    (hbc : lexLe b c = true) : lexLe a c = true := by
  induction a generalizing b c with
  | nil => rfl
  | cons x xs ih =>
    cases b with
    | nil => simp [lexLe] at hab
    | cons y ys =>
      cases c with
      | nil => simp [lexLe] at hbc
      | cons z zs =>
        rcases Nat.lt_trichotomy x y with h1 | h1 | h1
        · rcases Nat.lt_trichotomy y z with h2 | h2 | h2
          · simp [lexLe, Nat.lt_trans h1 h2]
          · subst h2; simp [lexLe, h1]
          · simp [lexLe, h2, Nat.lt_asymm h2] at hbc
        · subst h1
          rcases Nat.lt_trichotomy x z with h2 | h2 | h2
          · simp [lexLe, h2]
          · subst h2
            simp [lexLe, Nat.lt_irrefl] at hab hbc ⊢
            exact ih hab hbc
          · simp [lexLe, h2, Nat.lt_asymm h2] at hbc
        · simp [lexLe, h1, Nat.lt_asymm h1] at hab

instance : IsTotal (List Nat) LexLe := ⟨lexLe_total⟩

instance : IsTrans (List Nat) LexLe := ⟨fun _ _ _ => lexLe_trans⟩

instance : IsAntisymm (List Nat) LexLe := ⟨fun _ _ => lexLe_antisymm⟩

/-- `Index.Serialize` from `index.go`: build each entry's line while
skipping exact duplicates (the `seen` map), sort the collected lines in
unsigned byte order (`sort.Slice` with `bytes.Compare < 0`; the lines are
distinct after deduplication, so the sorted result is the unique `LexLe`
sorted permutation, modelled by insertion sort), and join with a single
line feed and no trailing newline (`bytes.Join`). -/
def Index.serialize (entries : List IndexEntry) : List Nat :=
  let lines := dedupFirst (entries.map lineOf) []
  List.intercalate [10] (List.insertionSort LexLe lines)

theorem mem_dedupFirst {a : List Nat} :
    ∀ {ls seen : List (List Nat)}, a ∈ dedupFirst ls seen ↔ a ∈ ls ∧ a ∉ seen := by
  intro ls
  induction ls with
  | nil => intro seen; simp [dedupFirst]
  | cons l ls ih =>
    intro seen
    by_cases hl : l ∈ seen
    · simp only [dedupFirst, if_pos hl, ih, List.mem_cons]
      constructor
      · rintro ⟨h1, h2⟩; exact ⟨Or.inr h1, h2⟩
      · rintro ⟨h1 | h1, h2⟩
        · exact absurd (h1 ▸ hl) h2
        · exact ⟨h1, h2⟩
    · simp only [dedupFirst, if_neg hl, List.mem_cons, ih]
      by_cases ha : a = l
      · subst ha; simp [hl]
      · simp [ha]

theorem nodup_dedupFirst : ∀ (ls seen : List (List Nat)), (dedupFirst ls seen).Nodup := by
  intro ls
  induction ls with
  | nil => intro seen; simp [dedupFirst]
  | cons l ls ih =>
    intro seen
    by_cases hl : l ∈ seen
    · simpa [dedupFirst, if_pos hl] using ih seen
    · rw [dedupFirst, if_neg hl]
      refine List.Nodup.cons ?_ (ih (l :: seen))
      intro hmem
      rcases mem_dedupFirst.mp hmem with ⟨_, hnot⟩
      exact hnot (List.mem_cons_self l seen)

theorem dedupFirst_perm_dedup (ls : List (List Nat)) :
    List.Perm (dedupFirst ls []) ls.dedup := by
  refine List.perm_of_nodup_nodup_toFinset_eq (nodup_dedupFirst ls []) ls.nodup_dedup ?_
  refine List.toFinset.ext fun a => ?_
  rw [mem_dedupFirst, List.mem_dedup]
  simp

/-- C6: the serialized index equals the unsigned-byte-order sort of the
deduplicated set of lines joined by a single line feed with no trailing
newline, each line being the quoted form alone when the entry has no data
hash and otherwise the quoted form, `=`, and the lowercase hex hash. -/
theorem claim_C6_index_serialize_canonical (entries : List IndexEntry) :
    Index.serialize entries
      = List.intercalate [10] (List.insertionSort LexLe (entries.map lineOf).dedup) := by
  show List.intercalate [10] (List.insertionSort LexLe (dedupFirst (entries.map lineOf) []))
      = List.intercalate [10] (List.insertionSort LexLe (entries.map lineOf).dedup)
  congr 1
  have hperm : List.Perm (List.insertionSort LexLe (dedupFirst (entries.map lineOf) []))
      (List.insertionSort LexLe (entries.map lineOf).dedup) :=
    ((List.perm_insertionSort _ _).trans (dedupFirst_perm_dedup _)).trans
      (List.perm_insertionSort LexLe _).symm
  exact @List.eq_of_perm_of_sorted _ LexLe _ _ _ hperm
    (List.sorted_insertionSort LexLe _) (List.sorted_insertionSort LexLe _)

/-- The two sequential single-byte `ReplaceAll` passes (backslash doubling,
then quote escaping) equal the one-pass character map, on any byte string. -/
theorem replaceChar_bs_dq_eq_escSpec (s : List Nat) :
    replaceChar dqByte [bsByte, dqByte] (replaceChar bsByte [bsByte, bsByte] s)
      = escSpec s := escapeForIndex_raw_eq_escSpec s

/-- The meta member name as computed by the `Create` loop in `create.go`:
escape the input path, then hash the escaped raw substring. -/
def createMetaName (H : List Nat → List Nat) (prefixB64 path : List Nat) : List Nat :=
  metaMemberName H prefixB64 (escapeForIndex path).2

/-- C7: for every input path the writer's meta member name is
`meta/<hex(H(salt_b64 ++ esc(P)))>.tar.zst.aes` where `esc` doubles each
backslash and then prefixes each double quote with a backslash; the hash
input is exactly the salt followed by the escaped bytes — nothing is ever
unescaped before hashing. -/
theorem claim_C7_meta_name_hash_of_escaped (H : List Nat → List Nat)
    (prefixB64 path : List Nat) :
    createMetaName H prefixB64 path
      = metaDirBytes ++ toHex (H (prefixB64 ++ escSpec path)) ++ metaExtBytes := by
  unfold createMetaName metaMemberName computeNameHash
  rw [escapeForIndex_raw_eq_escSpec]

/-- `matchesPrefix` from the listing file: an empty set matches everything;
otherwise a path is kept when the raw path, or the variant obtained by
re-applying the two escape substitutions to it, starts with one of the
given byte strings (`strings.HasPrefix`). -/
def matchesPrefix (pathRaw : List Nat) (prefixes : List (List Nat)) : Bool :=
  if prefixes.isEmpty then true
  else
    let unesc := replaceChar bsByte [bsByte, bsByte] pathRaw
    let unesc := replaceChar dqByte [bsByte, dqByte] unesc
    prefixes.any fun p => List.isPrefixOf p pathRaw || List.isPrefixOf p unesc

/-- The selection filter at the top of `Extract` (and `List`). -/
def selectEntries (entries : List IndexEntry) (prefixes : List (List Nat)) :
    List IndexEntry :=
  entries.filter fun e => matchesPrefix e.pathRaw prefixes

/-- C4 counterexample: the entry whose raw path is `\\` (two backslashes) is
selected by the nonempty filter `\\\` (three backslashes) although its raw
path does not start with that filter — the claim that exactly the raw-path
prefix matches are selected is false. -/
theorem claim_C4_counterexample_extra_selection :
    selectEntries [⟨[92, 92], [], [34, 92, 92, 34]⟩] [[92, 92, 92]]
        = [⟨[92, 92], [], [34, 92, 92, 34]⟩]
      ∧ ¬ [92, 92, 92] <+: [92, 92] := by decide

/-- C4 amended: an entry is selected exactly when the prefix set is empty,
or some given byte string is a prefix of the raw path or of the raw path
with the two escape substitutions applied to it once more. -/
theorem claim_C4_amended_selection_characterization
    (entries : List IndexEntry) (prefixes : List (List Nat)) (e : IndexEntry) :
    e ∈ selectEntries entries prefixes
      ↔ e ∈ entries ∧
        (prefixes = [] ∨ ∃ p ∈ prefixes, p <+: e.pathRaw ∨ p <+: escSpec e.pathRaw) := by
  unfold selectEntries matchesPrefix
  rw [List.mem_filter]
  by_cases hp : prefixes = []
  · subst hp; simp
  · have hne : prefixes.isEmpty = false := by
      cases prefixes with
      | nil => exact absurd rfl hp
      | cons q qs => rfl
    simp only [hne, Bool.false_eq_true, if_false, replaceChar_bs_dq_eq_escSpec,
      List.any_eq_true, Bool.or_eq_true, List.isPrefixOf_iff_prefix]
    constructor
    · rintro ⟨h1, h2⟩
      exact ⟨h1, Or.inr h2⟩
    · rintro ⟨h1, h2 | h2⟩
      · exact absurd h2 hp
      · exact ⟨h1, h2⟩

/-- `filepath.Join(dest, p)` for the clean arguments the extractor builds:
plain concatenation with a path separator. -/
def joinPath (dest p : List Nat) : List Nat := dest ++ [47] ++ p

/-- `toOutPath` from `extract.go`: the raw stored path is run through the
two escape substitutions once more and joined under `dest`. -/
def toOutPath (dest raw : List Nat) : List Nat :=
  let p := replaceChar bsByte [bsByte, bsByte] raw
  let p := replaceChar dqByte [bsByte, dqByte] p
  joinPath dest p

/-- C3 evaluation at the failing input: for the on-disk name `a"b` the
index stores raw path `a\"b`; the extractor materializes the object at
`dest/a\\\"b` — neither `join(dest, raw_path)` nor the original name. -/
theorem claim_C3_toOutPath_reescapes :
    toOutPath [100] [97, 92, 34, 98] = [100, 47, 97, 92, 92, 92, 34, 98]
      ∧ toOutPath [100] [97, 92, 34, 98] ≠ joinPath [100] [97, 92, 34, 98]
      ∧ toOutPath [100] [97, 92, 34, 98] ≠ joinPath [100] [97, 34, 98]
      ∧ (escapeForIndex [97, 34, 98]).2 = [97, 92, 34, 98] := by decide

/-- The file types the format supports (`tar.Header.Typeflag` values the
extractor switches on; `other` stands for any flag outside the switch). -/
inductive FType
  | reg
  | dir
  | symlink
  | fifo
  | other
deriving DecidableEq, Repr

/-- The fields of the single inner-tar header that `Extract` and `List`
read: type flag, permission bits, owner, modification time, link target. -/
structure MetaHdr where
  ftype : FType
  mode : Nat
  uid : Nat
  gid : Nat
  mtime : Nat
  linkname : List Nat
deriving DecidableEq, Repr

/-- The payload of an outer-tar member after the decrypt-then-decompress
pipeline (modelled separately) has been applied: a decoded inner-tar header
for `meta/*` members, the decompressed file body for `data/*` members. -/
inductive MemberPayload
  | meta (hdr : MetaHdr)
  | data (bytes : List Nat)
deriving DecidableEq, Repr

/-- One member of the outer tar as seen by the extractor's second pass. -/
structure ArchiveMember where
  name : List Nat
  payload : MemberPayload
deriving DecidableEq, Repr

/-- The filesystem calls `Extract` issues, in order.  `Attempt` effects are
the best-effort calls whose errors the source ignores. -/
inductive FsEffect
  | mkdirAll (path : List Nat) (mode : Nat)
  | ensureParents (path : List Nat)
  | fileWrite (path : List Nat) (content : List Nat) (mode : Nat)
  | symlinkCreate (target : List Nat) (path : List Nat)
  | mkfifo (path : List Nat) (mode : Nat)
  | chmodAttempt (path : List Nat) (mode : Nat)
  | chownAttempt (path : List Nat) (uid gid : Nat)
  | chtimesAttempt (path : List Nat) (mtime : Nat)
  | openArchive
deriving DecidableEq, Repr

/-- The fatal errors of the member walk. -/
inductive ExtractErr
  | missingMeta (pathRaw : List Nat)
  | badPayload (name : List Nat)
  | truncatedArchive
deriving DecidableEq, Repr

/-- Go map lookup on an association list whose keys are byte strings. -/
def mapGet {α : Type} (m : List (List Nat × α)) (k : List Nat) : Option α :=
  (m.find? fun kv => kv.1 == k).map fun kv => kv.2

/-- Go map assignment `m[k] = v` (overwrite). -/
def mapPut {α : Type} (m : List (List Nat × α)) (k : List Nat) (v : α) :
    List (List Nat × α) :=
  if m.any fun kv => kv.1 == k then
    m.map fun kv => if kv.1 == k then (kv.1, v) else kv
  else m ++ [(k, v)]

/-- Go `m[k] = append(m[k], e)` on a map of entry slices. -/
def mapAppend (m : List (List Nat × List IndexEntry)) (k : List Nat)
    (e : IndexEntry) : List (List Nat × List IndexEntry) :=
  if m.any fun kv => kv.1 == k then
    m.map fun kv => if kv.1 == k then (kv.1, kv.2 ++ [e]) else kv
  else m ++ [(k, [e])]

/-- `targetNameHashes` of `Extract`: meta member name of every selected
entry mapped to the entry. -/
def buildTargetNameHashes (H : List Nat → List Nat) (prefixB64 : List Nat)
    (wanted : List IndexEntry) : List (List Nat × IndexEntry) :=
  wanted.foldl (fun m e => mapPut m (metaMemberName H prefixB64 e.pathRaw) e) []

/-- `dataNeeds` of `Extract`: data member name mapped to the list of
selected entries waiting for that member. -/
def buildDataNeeds (wanted : List IndexEntry) : List (List Nat × List IndexEntry) :=
  wanted.foldl
    (fun m e => if e.hashData ≠ [] then mapAppend m (dataMemberName e.hashData) e else m) []

/-- The per-entry loop of the `data/*` branch of `Extract`: for each waiting
entry, require a deferred regular-file header, create and write the output
file, then apply metadata.  `rem` is what is left in the shared decompressed
stream; `io.Copy` drains it, so every entry after the first writes an empty
file (the recursive call passes `[]`). -/
def processDataEntries (dest : List Nat) (regMeta : List (List Nat × MetaHdr)) :
    List IndexEntry → List Nat → Except ExtractErr (List FsEffect)
  | [], _ => .ok []
  | e :: rest, rem =>
    match mapGet regMeta e.pathRaw with
    | none => .error (.missingMeta e.pathRaw)
    | some mh =>
      let out := toOutPath dest e.pathRaw
      match processDataEntries dest regMeta rest [] with
      | .error er => .error er
      | .ok effs =>
        .ok ([.ensureParents out, .fileWrite out rem mh.mode, .chmodAttempt out mh.mode,
              .chownAttempt out mh.uid mh.gid, .chtimesAttempt out mh.mtime] ++ effs)

/-- One iteration of the member loop of `Extract`: meta members of selected
entries materialize directories, symlinks and fifos at once and defer
regular-file headers in `regMetaByPath`; data members serve their waiting
entries; all other members are skipped. -/
def stepMember (tmap : List (List Nat × IndexEntry))
    (dmap : List (List Nat × List IndexEntry)) (dest : List Nat)
    (regMeta : List (List Nat × MetaHdr)) (m : ArchiveMember) :
    Except ExtractErr (List (List Nat × MetaHdr) × List FsEffect) :=
  match mapGet tmap m.name with
  | some e =>
    match m.payload with
    | .meta mh =>
      let out := toOutPath dest e.pathRaw
      match mh.ftype with
      | .dir => .ok (regMeta,
          [.mkdirAll out mh.mode, .chownAttempt out mh.uid mh.gid,
           .chtimesAttempt out mh.mtime])
      | .symlink => .ok (regMeta,
          [.ensureParents out, .symlinkCreate mh.linkname out,
           .chownAttempt out mh.uid mh.gid])
      | .fifo => .ok (regMeta,
          [.ensureParents out, .mkfifo out mh.mode, .chownAttempt out mh.uid mh.gid,
           .chtimesAttempt out mh.mtime])
      | .reg => .ok (mapPut regMeta e.pathRaw mh, [])
      | .other => .ok (regMeta, [])
    | .data _ => .error (.badPayload m.name)
  | none =>
    match mapGet dmap m.name with
    | some entries =>
      match m.payload with
      | .data b =>
        match processDataEntries dest regMeta entries b with
        | .error er => .error er
        | .ok effs => .ok (regMeta, effs)
      | .meta _ => .error (.badPayload m.name)
    | none => .ok (regMeta, [])

/-- The member loop of `Extract`, threading the deferred-meta map and
accumulating the effect trace. -/
def walkMembers (tmap : List (List Nat × IndexEntry))
    (dmap : List (List Nat × List IndexEntry)) (dest : List Nat) :
    List ArchiveMember → List (List Nat × MetaHdr) →
      Except ExtractErr (List FsEffect)
  | [], _ => .ok []
  | m :: ms, regMeta =>
    match stepMember tmap dmap dest regMeta m with
    | .error er => .error er
    | .ok (regMeta2, effs) =>
      match walkMembers tmap dmap dest ms regMeta2 with
      | .error er => .error er
      | .ok effs2 => .ok (effs ++ effs2)

/-- `Extract` from `extract.go`, after `ensureLoaded`: filter the index by
the prefixes; an empty selection returns at once with no filesystem effect;
otherwise build the two name maps, create the destination root, reopen the
archive, skip the two prologue members, and walk the rest.  `H` is the
abstract digest, `prefixB64` the loaded salt. -/
def Extract (H : List Nat → List Nat) (prefixB64 : List Nat)
    (index : List IndexEntry) (dest : List Nat) (prefixes : List (List Nat))
    (members : List ArchiveMember) : Except ExtractErr (List FsEffect) :=
  let wanted := selectEntries index prefixes
  if wanted.isEmpty then .ok []
  else
    let tmap := buildTargetNameHashes H prefixB64 wanted
    let dmap := buildDataNeeds wanted
    match members with
    | _ :: _ :: rest =>
      match walkMembers tmap dmap dest rest [] with
      | .error er => .error er
      | .ok effs => .ok ([.mkdirAll dest 493, .openArchive] ++ effs)
    | _ => .error .truncatedArchive

instance {e a : Type} [DecidableEq e] [DecidableEq a] : DecidableEq (Except e a) :=
  fun x y =>
    match x, y with
    | .ok u, .ok v => decidable_of_iff (u = v) ⟨fun h => by rw [h], fun h => by cases h; rfl⟩
    | .error u, .error v =>
        decidable_of_iff (u = v) ⟨fun h => by rw [h], fun h => by cases h; rfl⟩
    | .ok _, .error _ => isFalse fun h => by cases h
    | .error _, .ok _ => isFalse fun h => by cases h

/-- C10: when no index entry matches the given prefixes, `Extract` succeeds
with an empty effect trace: the destination root is not created, nothing is
materialized, and the archive is not reopened for a second pass. -/
theorem claim_C10_empty_selection_no_effects (H : List Nat → List Nat)
    (prefixB64 : List Nat) (index : List IndexEntry) (dest : List Nat)
    (prefixes : List (List Nat)) (members : List ArchiveMember)
    (h : ∀ e ∈ index, matchesPrefix e.pathRaw prefixes = false) :
    Extract H prefixB64 index dest prefixes members = .ok [] := by
  have hsel : selectEntries index prefixes = [] := by
    unfold selectEntries
    rw [List.filter_eq_nil_iff]
    intro e he
    simp [h e he]
  unfold Extract
  rw [hsel]
  rfl

theorem claim_C10_empty_selection_no_effects_witness :
    (∀ e ∈ [(⟨[97], [], [34, 97, 34]⟩ : IndexEntry)],
        matchesPrefix e.pathRaw [[98]] = false)
      ∧ Extract id [] [⟨[97], [], [34, 97, 34]⟩] [100] [[98]]
          [⟨[109], .data []⟩] = .ok [] :=
  ⟨by decide,
    claim_C10_empty_selection_no_effects id [] [⟨[97], [], [34, 97, 34]⟩] [100] [[98]]
      [⟨[109], .data []⟩] (by decide)⟩

/-- C2 at the failing input: two selected regular files `x` and `y` share
one data member with payload `abcde`; the walk succeeds, but only the first
waiting entry receives the payload — the second file is created and written
empty, because the shared decompressed stream is already drained. -/
theorem claim_C2_shared_data_second_entry_empty :
    Extract id [] [⟨[120], [97], [34, 120, 34]⟩, ⟨[121], [97], [34, 121, 34]⟩]
        [100] []
        [⟨[122], .data []⟩, ⟨[122], .data []⟩,
         ⟨metaMemberName id [] [120], .meta ⟨.reg, 420, 0, 0, 7, []⟩⟩,
         ⟨metaMemberName id [] [121], .meta ⟨.reg, 420, 0, 0, 7, []⟩⟩,
         ⟨dataMemberName [97], .data [97, 98, 99, 100, 101]⟩]
      = .ok [.mkdirAll [100] 493, .openArchive,
          .ensureParents [100, 47, 120],
          .fileWrite [100, 47, 120] [97, 98, 99, 100, 101] 420,
          .chmodAttempt [100, 47, 120] 420, .chownAttempt [100, 47, 120] 0 0,
          .chtimesAttempt [100, 47, 120] 7,
          .ensureParents [100, 47, 121],
          .fileWrite [100, 47, 121] [] 420,
          .chmodAttempt [100, 47, 121] 420, .chownAttempt [100, 47, 121] 0 0,
          .chtimesAttempt [100, 47, 121] 7]
      ∧ ([] : List Nat) ≠ [97, 98, 99, 100, 101] := by decide

/-- C5 counterexample: an archive in which the (single) selected regular
file's data member precedes its meta member; both are present, yet the walk
aborts with a missing-meta error instead of tolerating the order. -/
theorem claim_C5_counterexample_data_before_meta :
    Extract id [] [⟨[120], [97], [34, 120, 34]⟩] [100] []
        [⟨[122], .data []⟩, ⟨[122], .data []⟩,
         ⟨dataMemberName [97], .data [5]⟩,
         ⟨metaMemberName id [] [120], .meta ⟨.reg, 420, 0, 0, 7, []⟩⟩]
      = .error (.missingMeta [120]) := by decide

theorem mapGet_single {α : Type} (k : List Nat) (v : α) (q : List Nat) :
    mapGet [(k, v)] q = if k = q then some v else none := by
  by_cases h : k = q
  · simp [mapGet, List.find?, h]
  · have hb : (k == q) = false := beq_eq_false_iff_ne.mpr h
    simp [mapGet, List.find?, hb, h]

/-- A meta member name never equals a data member name (distinct directory
components). -/
theorem metaName_ne_dataName (H : List Nat → List Nat)
    (prefixB64 pathRaw hd : List Nat) :
    metaMemberName H prefixB64 pathRaw ≠ dataMemberName hd := by
  intro h
  simp [metaMemberName, dataMemberName, metaDirBytes, dataDirBytes] at h

/-- Members matching neither name map are skipped by the walk without any
state change or effect. -/
theorem walkMembers_skip (tmap : List (List Nat × IndexEntry))
    (dmap : List (List Nat × List IndexEntry)) (dest : List Nat)
    (l rest : List ArchiveMember) (rm : List (List Nat × MetaHdr))
    (h : ∀ m ∈ l, mapGet tmap m.name = none ∧ mapGet dmap m.name = none) :
    walkMembers tmap dmap dest (l ++ rest) rm = walkMembers tmap dmap dest rest rm := by
  induction l with
  | nil => rfl
  | cons m ms ih =>
    have hm := h m (List.mem_cons_self m ms)
    have hs : stepMember tmap dmap dest rm m = .ok (rm, []) := by
      unfold stepMember
      rw [hm.1, hm.2]
    rw [List.cons_append, walkMembers, hs]
    have heq := ih fun x hx => h x (List.mem_cons_of_mem m hx)
    simp only [heq]
    cases walkMembers tmap dmap dest rest rm <;> rfl

/-- C5 amended: extraction of a selected regular-file entry succeeds when
its meta member appears anywhere before its data member, with arbitrary
non-matching members around them: the deferred header is found when the
data member arrives and the file is written with the member's payload.
(When the data member comes first the walk fails with a missing-meta
error, see the counterexample.) -/
theorem claim_C5_amended_meta_then_data_succeeds (H : List Nat → List Nat)
    (prefixB64 dest b : List Nat) (e : IndexEntry) (mh : MetaHdr)
    (m1 m2 : ArchiveMember) (pre mid post : List ArchiveMember)
    (hreg : mh.ftype = .reg) (hhash : e.hashData ≠ [])
    (hskip : ∀ m ∈ pre ++ mid ++ post,
      m.name ≠ metaMemberName H prefixB64 e.pathRaw
        ∧ m.name ≠ dataMemberName e.hashData) :
    Extract H prefixB64 [e] dest []
        (m1 :: m2 :: (pre ++ ⟨metaMemberName H prefixB64 e.pathRaw, .meta mh⟩
          :: (mid ++ ⟨dataMemberName e.hashData, .data b⟩ :: post)))
      = .ok [.mkdirAll dest 493, .openArchive,
          .ensureParents (toOutPath dest e.pathRaw),
          .fileWrite (toOutPath dest e.pathRaw) b mh.mode,
          .chmodAttempt (toOutPath dest e.pathRaw) mh.mode,
          .chownAttempt (toOutPath dest e.pathRaw) mh.uid mh.gid,
          .chtimesAttempt (toOutPath dest e.pathRaw) mh.mtime] := by
  have hnd := metaName_ne_dataName H prefixB64 e.pathRaw e.hashData
  have hsel : selectEntries [e] [] = [e] := by
    simp [selectEntries, matchesPrefix, List.filter]
  have htmap : buildTargetNameHashes H prefixB64 [e]
      = [(metaMemberName H prefixB64 e.pathRaw, e)] := by
    simp [buildTargetNameHashes, mapPut]
  have hdmap : buildDataNeeds [e] = [(dataMemberName e.hashData, [e])] := by
    simp [buildDataNeeds, mapAppend, hhash]
  have hskipNone : ∀ m ∈ pre ++ mid ++ post,
      mapGet [(metaMemberName H prefixB64 e.pathRaw, e)] m.name = none
        ∧ mapGet [(dataMemberName e.hashData, [e])] m.name = none := by
    intro m hm
    rcases hskip m hm with ⟨h1, h2⟩
    constructor
    · rw [mapGet_single, if_neg (fun hh => h1 hh.symm)]
    · rw [mapGet_single, if_neg (fun hh => h2 hh.symm)]
  have hpre : ∀ m ∈ pre,
      mapGet [(metaMemberName H prefixB64 e.pathRaw, e)] m.name = none
        ∧ mapGet [(dataMemberName e.hashData, [e])] m.name = none := by
    intro m hm
    exact hskipNone m (by simp [hm])
  have hmid : ∀ m ∈ mid,
      mapGet [(metaMemberName H prefixB64 e.pathRaw, e)] m.name = none
        ∧ mapGet [(dataMemberName e.hashData, [e])] m.name = none := by
    intro m hm
    exact hskipNone m (by simp [hm])
  have hpost : ∀ m ∈ post,
      mapGet [(metaMemberName H prefixB64 e.pathRaw, e)] m.name = none
        ∧ mapGet [(dataMemberName e.hashData, [e])] m.name = none := by
    intro m hm
    exact hskipNone m (by simp [hm])
  have hstepMeta : stepMember [(metaMemberName H prefixB64 e.pathRaw, e)]
      [(dataMemberName e.hashData, [e])] dest []
      ⟨metaMemberName H prefixB64 e.pathRaw, .meta mh⟩
      = .ok ([(e.pathRaw, mh)], []) := by
    unfold stepMember
    rw [mapGet_single, if_pos rfl]
    show (match mh.ftype with
      | FType.dir => _ | FType.symlink => _ | FType.fifo => _
      | FType.reg => Except.ok (mapPut [] e.pathRaw mh, [])
      | FType.other => _) = _
    rw [hreg]
    rfl
  have hstepData : stepMember [(metaMemberName H prefixB64 e.pathRaw, e)]
      [(dataMemberName e.hashData, [e])] dest [(e.pathRaw, mh)]
      ⟨dataMemberName e.hashData, .data b⟩
      = .ok ([(e.pathRaw, mh)],
          [.ensureParents (toOutPath dest e.pathRaw),
           .fileWrite (toOutPath dest e.pathRaw) b mh.mode,
           .chmodAttempt (toOutPath dest e.pathRaw) mh.mode,
           .chownAttempt (toOutPath dest e.pathRaw) mh.uid mh.gid,
           .chtimesAttempt (toOutPath dest e.pathRaw) mh.mtime]) := by
    unfold stepMember
    rw [mapGet_single, if_neg hnd, mapGet_single, if_pos rfl]
    show (match processDataEntries dest [(e.pathRaw, mh)] [e] b with
      | Except.error er => Except.error er
      | Except.ok effs => Except.ok ([(e.pathRaw, mh)], effs)) = _
    unfold processDataEntries
    rw [mapGet_single, if_pos rfl]
    rfl
  have hwalk : walkMembers [(metaMemberName H prefixB64 e.pathRaw, e)]
      [(dataMemberName e.hashData, [e])] dest
      (pre ++ ⟨metaMemberName H prefixB64 e.pathRaw, .meta mh⟩
        :: (mid ++ ⟨dataMemberName e.hashData, .data b⟩ :: post)) []
      = .ok [.ensureParents (toOutPath dest e.pathRaw),
          .fileWrite (toOutPath dest e.pathRaw) b mh.mode,
          .chmodAttempt (toOutPath dest e.pathRaw) mh.mode,
          .chownAttempt (toOutPath dest e.pathRaw) mh.uid mh.gid,
          .chtimesAttempt (toOutPath dest e.pathRaw) mh.mtime] := by
    rw [walkMembers_skip _ _ _ pre _ _ hpre, walkMembers, hstepMeta]
    have hmidwalk := walkMembers_skip
      [(metaMemberName H prefixB64 e.pathRaw, e)] [(dataMemberName e.hashData, [e])]
      dest mid (⟨dataMemberName e.hashData, .data b⟩ :: post) [(e.pathRaw, mh)] hmid
    simp only [hmidwalk, walkMembers, hstepData]
    have hpostwalk := walkMembers_skip
      [(metaMemberName H prefixB64 e.pathRaw, e)] [(dataMemberName e.hashData, [e])]
      dest post [] [(e.pathRaw, mh)] hpost
    rw [List.append_nil] at hpostwalk
    simp only [hpostwalk, walkMembers]
    rfl
  unfold Extract
  rw [hsel]
  show (if ([e] : List IndexEntry).isEmpty = true then _ else _) = _
  rw [if_neg (by simp)]
  rw [htmap, hdmap]
  show (match walkMembers _ _ dest
      (pre ++ ⟨metaMemberName H prefixB64 e.pathRaw, .meta mh⟩
        :: (mid ++ ⟨dataMemberName e.hashData, .data b⟩ :: post)) [] with
    | Except.error er => Except.error er
    | Except.ok effs => Except.ok ([FsEffect.mkdirAll dest 493, FsEffect.openArchive] ++ effs)) = _
  rw [hwalk]
  rfl

theorem claim_C5_amended_meta_then_data_succeeds_witness :
    ((⟨.reg, 420, 0, 0, 7, []⟩ : MetaHdr).ftype = .reg)
      ∧ (([97] : List Nat) ≠ [])
      ∧ (∀ m ∈ ([⟨[113], .data []⟩] ++ [] ++ [⟨[114], .data []⟩] : List ArchiveMember),
          m.name ≠ metaMemberName id [] [120] ∧ m.name ≠ dataMemberName [97])
      ∧ Extract id [] [⟨[120], [97], [34, 120, 34]⟩] [100] []
          (⟨[122], .data []⟩ :: ⟨[122], .data []⟩ ::
            ([⟨[113], .data []⟩] ++ ⟨metaMemberName id [] [120], .meta ⟨.reg, 420, 0, 0, 7, []⟩⟩
              :: ([] ++ ⟨dataMemberName [97], .data [1, 2]⟩ :: [⟨[114], .data []⟩])))
        = .ok [.mkdirAll [100] 493, .openArchive,
            .ensureParents [100, 47, 120], .fileWrite [100, 47, 120] [1, 2] 420,
            .chmodAttempt [100, 47, 120] 420, .chownAttempt [100, 47, 120] 0 0,
            .chtimesAttempt [100, 47, 120] 7] :=
  ⟨rfl, by decide, by decide,
    claim_C5_amended_meta_then_data_succeeds id [] [100] [1, 2]
      ⟨[120], [97], [34, 120, 34]⟩ ⟨.reg, 420, 0, 0, 7, []⟩
      ⟨[122], .data []⟩ ⟨[122], .data []⟩
      [⟨[113], .data []⟩] [] [⟨[114], .data []⟩] rfl (by decide) (by decide)⟩

/-- The four filesystem object kinds `classifyPath` accepts (any other type
is a fatal error before the loop body runs, so it is not modelled). -/
inductive FSNode
  | reg (content : List Nat)
  | dir
  | symlink (target : List Nat)
  | fifo
deriving DecidableEq, Repr

/-- `data_hash` as computed in the `Create` loop: the digest is seeded with
the salt's base64 form and then fed the raw file bytes, rendered lowercase
hex. -/
def computeDataHash (H : List Nat → List Nat) (prefixB64 fileBytes : List Nat) :
    List Nat :=
  toHex (H (prefixB64 ++ fileBytes))

/-- Accumulator of the `Create` per-path loop: meta member names emitted,
data member names emitted, the `dataWritten` dedup set, and the index
entries collected. -/
structure CreateAcc where
  metaMembers : List (List Nat)
  dataMembers : List (List Nat)
  dataWritten : List (List Nat)
  entries : List IndexEntry
deriving DecidableEq, Repr

/-- The per-path loop of `ArchiveWriter.Create` (`create.go`): for every
path (already sorted and deduplicated) emit its meta member; for a regular
file also compute the data hash and emit `data/<hash>.zst.aes` unless that
hash was already written (`dataWritten`); append the path's index entry,
which records the shared hash for every regular file. -/
def createLoop (H : List Nat → List Nat) (prefixB64 : List Nat)
    (fs : List Nat → FSNode) : List (List Nat) → CreateAcc → CreateAcc
  | [], acc => acc
  | p :: ps, acc =>
    let q := escapeForIndex p
    let acc := { acc with
      metaMembers := acc.metaMembers ++ [metaMemberName H prefixB64 q.2] }
    match fs p with
    | .reg content =>
      let hData := computeDataHash H prefixB64 content
      let acc :=
        if hData ∈ acc.dataWritten then acc
        else { acc with dataMembers := acc.dataMembers ++ [dataMemberName hData],
                        dataWritten := acc.dataWritten ++ [hData] }
      createLoop H prefixB64 fs ps
        { acc with entries := acc.entries ++ [⟨q.2, hData, q.1⟩] }
    | _ =>
      createLoop H prefixB64 fs ps
        { acc with entries := acc.entries ++ [⟨q.2, [], q.1⟩] }

/-- The contents of the regular files among the given paths, in order. -/
def regContents (fs : List Nat → FSNode) : List (List Nat) → List (List Nat)
  | [] => []
  | p :: ps =>
    match fs p with
    | .reg c => c :: regContents fs ps
    | _ => regContents fs ps

/-- The number of distinct elements of `l` that are not in `w`, counted the
way the `dataWritten` set admits new hashes. -/
def countNew {α : Type} [DecidableEq α] : List α → List α → Nat
  | [], _ => 0
  | a :: l, w => if a ∈ w then countNew l w else 1 + countNew l (a :: w)

theorem countNew_congr {α : Type} [DecidableEq α] :
    ∀ (l w w' : List α), (∀ a : α, a ∈ w ↔ a ∈ w') → countNew l w = countNew l w' := by
  intro l
  induction l with
  | nil => intro w w' _; rfl
  | cons a l ih =>
    intro w w' hw
    unfold countNew
    by_cases h : a ∈ w
    · rw [if_pos h, if_pos ((hw a).mp h), ih w w' hw]
    · rw [if_neg h, if_neg (fun hh => h ((hw a).mpr hh))]
      have : ∀ b : α, b ∈ a :: w ↔ b ∈ a :: w' := by
        intro b
        simp only [List.mem_cons]
        constructor
        · rintro (hb | hb)
          · exact Or.inl hb
          · exact Or.inr ((hw b).mp hb)
        · rintro (hb | hb)
          · exact Or.inl hb
          · exact Or.inr ((hw b).mpr hb)
      rw [ih (a :: w) (a :: w') this]

theorem createLoop_dataMembers_length (H : List Nat → List Nat)
    (prefixB64 : List Nat) (fs : List Nat → FSNode) :
    ∀ (ps : List (List Nat)) (acc : CreateAcc),
      (createLoop H prefixB64 fs ps acc).dataMembers.length
        = acc.dataMembers.length
          + countNew ((regContents fs ps).map (computeDataHash H prefixB64))
              acc.dataWritten := by
  intro ps
  induction ps with
  | nil => intro acc; simp [createLoop, regContents, countNew]
  | cons p ps ih =>
    intro acc
    unfold createLoop regContents
    cases hfs : fs p with
    | reg c =>
      simp only
      by_cases hmem : computeDataHash H prefixB64 c ∈ acc.dataWritten
      · rw [if_pos hmem, ih]
        simp only [List.map_cons, countNew, if_pos hmem]
      · rw [if_neg hmem, ih]
        simp only [List.map_cons, countNew, if_neg hmem, List.length_append,
          List.length_cons, List.length_nil]
        rw [countNew_congr _ (acc.dataWritten ++ [computeDataHash H prefixB64 c])
          (computeDataHash H prefixB64 c :: acc.dataWritten)
          (by intro a; simp [Or.comm])]
        omega
    | dir => simp only; rw [ih]
    | symlink t => simp only; rw [ih]
    | fifo => simp only; rw [ih]

theorem countNew_map_inj {α β : Type} [DecidableEq α] [DecidableEq β] (f : α → β) :
    ∀ (l w : List α), (∀ x ∈ l ++ w, ∀ y ∈ l ++ w, f x = f y → x = y) →
      countNew (l.map f) (w.map f) = countNew l w := by
  intro l
  induction l with
  | nil => intro w _; rfl
  | cons a l ih =>
    intro w hinj
    have ha : a ∈ (a :: l) ++ w := by simp
    simp only [List.map_cons, countNew]
    by_cases h : a ∈ w
    · rw [if_pos (List.mem_map_of_mem f h), if_pos h]
      exact ih w fun x hx y hy => hinj x (by simp at hx ⊢; tauto) y (by simp at hy ⊢; tauto)
    · have hfa : f a ∉ w.map f := by
        intro hf
        rcases List.mem_map.mp hf with ⟨b, hb, hfb⟩
        exact h (hinj a ha b (by simp [hb]) hfb.symm ▸ hb)
      rw [if_neg hfa, if_neg h]
      have : (a :: w).map f = f a :: w.map f := rfl
      rw [← this]
      rw [ih (a :: w) fun x hx y hy =>
        hinj x (by simp at hx ⊢; tauto) y (by simp at hy ⊢; tauto)]

theorem insert_eq_insert_erase {α : Type} [DecidableEq α] (a : α) (X : Finset α) :
    insert a X = insert a (X.erase a) := by
  ext b
  by_cases hb : b = a <;> simp [hb]

theorem countNew_eq_card_sdiff {α : Type} [DecidableEq α] :
    ∀ (l w : List α), countNew l w = (l.toFinset \ w.toFinset).card := by
  intro l
  induction l with
  | nil => intro w; simp [countNew]
  | cons a l ih =>
    intro w
    unfold countNew
    by_cases h : a ∈ w
    · rw [if_pos h, ih w, List.toFinset_cons,
        Finset.insert_sdiff_of_mem _ (List.mem_toFinset.mpr h)]
    · rw [if_neg h, ih (a :: w), List.toFinset_cons, List.toFinset_cons,
        Finset.insert_sdiff_of_not_mem _ (fun hh => h (List.mem_toFinset.mp hh)),
        Finset.sdiff_insert, insert_eq_insert_erase,
        Finset.card_insert_of_not_mem (Finset.not_mem_erase a _)]
      omega

theorem createLoop_entries (H : List Nat → List Nat) (prefixB64 : List Nat)
    (fs : List Nat → FSNode) :
    ∀ (ps : List (List Nat)) (acc : CreateAcc),
      (createLoop H prefixB64 fs ps acc).entries
        = acc.entries ++ ps.map fun p =>
            match fs p with
            | .reg c => (⟨(escapeForIndex p).2, computeDataHash H prefixB64 c,
                (escapeForIndex p).1⟩ : IndexEntry)
            | _ => ⟨(escapeForIndex p).2, [], (escapeForIndex p).1⟩ := by
  intro ps
  induction ps with
  | nil => intro acc; simp [createLoop]
  | cons p ps ih =>
    intro acc
    unfold createLoop
    cases hfs : fs p with
    | reg c =>
      simp only
      by_cases hmem : computeDataHash H prefixB64 c ∈ acc.dataWritten
      · rw [if_pos hmem, ih]
        simp [hfs]
      · rw [if_neg hmem, ih]
        simp [hfs]
    | dir => simp only; rw [ih]; simp [hfs]
    | symlink t => simp only; rw [ih]; simp [hfs]
    | fifo => simp only; rw [ih]; simp [hfs]

/-- C8: starting from an empty archive, the number of `data/*` members the
`Create` loop emits equals the number of distinct regular-file contents
(assuming the salted digest does not collide on those contents), and every
regular file's index entry records the (possibly shared) data hash of its
content. -/
theorem claim_C8_data_dedup_and_shared_hashes (H : List Nat → List Nat)
    (prefixB64 : List Nat) (fs : List Nat → FSNode) (paths : List (List Nat))
    (hinj : ∀ x ∈ regContents fs paths, ∀ y ∈ regContents fs paths,
        computeDataHash H prefixB64 x = computeDataHash H prefixB64 y → x = y) :
    (createLoop H prefixB64 fs paths ⟨[], [], [], []⟩).dataMembers.length
        = (regContents fs paths).dedup.length
      ∧ (createLoop H prefixB64 fs paths ⟨[], [], [], []⟩).entries
        = paths.map fun p =>
            match fs p with
            | .reg c => (⟨(escapeForIndex p).2, computeDataHash H prefixB64 c,
                (escapeForIndex p).1⟩ : IndexEntry)
            | _ => ⟨(escapeForIndex p).2, [], (escapeForIndex p).1⟩ := by
  constructor
  · rw [createLoop_dataMembers_length]
    show 0 + countNew ((regContents fs paths).map (computeDataHash H prefixB64)) [] = _
    rw [Nat.zero_add]
    have hmap : countNew ((regContents fs paths).map (computeDataHash H prefixB64))
        (([] : List (List Nat)).map (computeDataHash H prefixB64))
          = countNew (regContents fs paths) [] := by
      refine countNew_map_inj _ _ [] ?_
      simpa using hinj
    simp only [List.map_nil] at hmap
    rw [hmap, countNew_eq_card_sdiff]
    simp [List.card_toFinset]
  · rw [createLoop_entries]
    rfl

theorem claim_C8_data_dedup_and_shared_hashes_witness :
    (∀ x ∈ regContents
        (fun p => if p = [120] then .reg [5] else if p = [121] then .reg [5] else .reg [6])
        [[120], [121], [122]],
      ∀ y ∈ regContents
        (fun p => if p = [120] then .reg [5] else if p = [121] then .reg [5] else .reg [6])
        [[120], [121], [122]],
      computeDataHash id [] x = computeDataHash id [] y → x = y)
      ∧ (createLoop id []
          (fun p => if p = [120] then .reg [5] else if p = [121] then .reg [5] else .reg [6])
          [[120], [121], [122]] ⟨[], [], [], []⟩).dataMembers.length = 2
      ∧ (regContents
          (fun p => if p = [120] then .reg [5] else if p = [121] then .reg [5] else .reg [6])
          [[120], [121], [122]]).dedup.length = 2 :=
  ⟨by decide,
    by
      rw [(claim_C8_data_dedup_and_shared_hashes id []
        (fun p => if p = [120] then .reg [5] else if p = [121] then .reg [5] else .reg [6])
        [[120], [121], [122]] (by decide)).1]
      decide,
    by decide⟩

/-- Byte-wise XOR, as CBC chaining performs it on 16-byte blocks. -/
def xorBytes (a b : List Nat) : List Nat :=
  List.zipWith (fun x y => x ^^^ y) a b

/-- The AES block size used throughout (`mode.BlockSize()`). -/
def blockSize : Nat := 16

/-- Block-at-a-time recursion for `CryptBlocks`, structurally recursive on
a fuel that every caller sets to the input length (one block consumes at
least one byte, so the fuel never runs out). -/
def cryptBlocksEncAux (E : List Nat → List Nat) :
    Nat → List Nat → List Nat → List Nat × List Nat
  | 0, prev, _ => ([], prev)
  | fuel + 1, prev, data =>
    if data = [] then ([], prev)
    else
      let c := E (xorBytes prev (data.take blockSize))
      let r := cryptBlocksEncAux E fuel c (data.drop blockSize)
      (c ++ r.1, r.2)

/-- `cipher.NewCBCEncrypter(...).CryptBlocks` on a whole-block input:
each block is XORed with the running IV, passed through the abstract block
function `E`, emitted, and becomes the next IV.  Returns the ciphertext and
the final chaining value. -/
def cryptBlocksEnc (E : List Nat → List Nat) (prev data : List Nat) :
    List Nat × List Nat :=
  cryptBlocksEncAux E data.length prev data

/-- Block-at-a-time recursion for the decrypting `CryptBlocks`, with the
same fuel device. -/
def cryptBlocksDecAux (D : List Nat → List Nat) :
    Nat → List Nat → List Nat → List Nat × List Nat
  | 0, prev, _ => ([], prev)
  | fuel + 1, prev, data =>
    if data = [] then ([], prev)
    else
      let blk := data.take blockSize
      let p := xorBytes prev (D blk)
      let r := cryptBlocksDecAux D fuel blk (data.drop blockSize)
      (p ++ r.1, r.2)

/-- The CBC decrypter: each ciphertext block is passed through the inverse
block function `D` and XORed with the previous ciphertext block (initially
the IV). -/
def cryptBlocksDec (D : List Nat → List Nat) (prev data : List Nat) :
    List Nat × List Nat :=
  cryptBlocksDecAux D data.length prev data

/-- State of `cbcPKCS7Writer`: the CBC chaining value of `mode` and the
buffered plaintext remainder (always shorter than one block). -/
structure CBCWriterState where
  prev : List Nat
  buf : List Nat
deriving DecidableEq, Repr

/-- `cbcPKCS7Writer.Write`: append to the buffer, encrypt the whole-block
portion, keep the remainder.  Returns the new state and the ciphertext
emitted downstream. -/
def cbcWrite (E : List Nat → List Nat) (st : CBCWriterState) (p : List Nat) :
    CBCWriterState × List Nat :=
  let buf := st.buf ++ p
  let n := buf.length / blockSize * blockSize
  if n = 0 then (⟨st.prev, buf⟩, [])
  else
    let r := cryptBlocksEnc E st.prev (buf.take n)
    (⟨r.2, buf.drop n⟩, r.1)

/-- `cbcPKCS7Writer.Close`: append PKCS#7 padding (a full block when the
buffer is block-aligned) and encrypt the final blocks. -/
def cbcClose (E : List Nat → List Nat) (st : CBCWriterState) : List Nat :=
  let padLen :=
    if blockSize - st.buf.length % blockSize = 0 then blockSize
    else blockSize - st.buf.length % blockSize
  (cryptBlocksEnc E st.prev (st.buf ++ List.replicate padLen padLen)).1

/-- The ciphertext an `OpenSSLEncryptWriter` stream produces after the
header and salt, for a given chunking of the plaintext into `Write` calls
followed by `Close`.  `iv` is the PBKDF2-derived IV. -/
def cbcEncryptChunks (E : List Nat → List Nat) (iv : List Nat)
    (chunks : List (List Nat)) : List Nat :=
  let st := chunks.foldl
    (fun acc c =>
      let r := cbcWrite E acc.1 c
      (r.1, acc.2 ++ r.2))
    ((⟨iv, []⟩ : CBCWriterState), ([] : List Nat))
  st.2 ++ cbcClose E st.1

/-- The underlying `io.Reader` of the decrypter, positioned after header
and salt: a prescribed sequence of read results.  When `eofWithLast` is
set, the read that consumes the final bytes also reports `io.EOF` (as
`archive/tar` does); otherwise end-of-stream is reported by a later read
that returns zero bytes (as `bytes.Reader` or `os.File` do). -/
structure ByteSource where
  chunks : List (List Nat)
  eofWithLast : Bool
deriving DecidableEq, Repr

/-- One `Read` on the underlying source with a buffer of length `cap`:
returns the bytes delivered, the rest of the source, and whether `io.EOF`
was reported by this call. -/
def sourceRead (cap : Nat) (s : ByteSource) : List Nat × ByteSource × Bool :=
  match s.chunks with
  | [] => ([], s, true)
  | c :: cs =>
    let t := c.take cap
    let r := c.drop cap
    let rest := if r = [] then cs else r :: cs
    (t, ⟨rest, s.eofWithLast⟩, s.eofWithLast && rest.isEmpty)

/-- State of `cbcPKCS7Reader`: the source, the CBC chaining value, the
undecrypted ciphertext remainder `buf`, the plaintext leftover `out`, and
the finalization flag `fin`. -/
structure CBCReaderState where
  src : ByteSource
  prev : List Nat
  buf : List Nat
  out : List Nat
  fin : Bool
deriving DecidableEq, Repr

/-- The decrypter's error values. -/
inductive DecErr
  | unexpectedEOF
  | shortFinalBlock
  | padRange
  | padContent
deriving DecidableEq, Repr

/-- The outcome of one `cbcPKCS7Reader.Read` call with a caller buffer of
length `cap`. -/
inductive ReadStep
  | served (bytes : List Nat) (st : CBCReaderState)
  | eof
  | failed (e : DecErr)
deriving DecidableEq, Repr

/-- `cbcPKCS7Reader.Read`: serve leftovers first; after finalization report
EOF; otherwise read up to 4096 bytes from the source, decrypt every full
block now available, and only when this very read reported end-of-stream
validate and strip the PKCS#7 padding of what was just decrypted. -/
def cbcRead (D : List Nat → List Nat) (cap : Nat) (st : CBCReaderState) : ReadStep :=
  if st.out ≠ [] then
    .served (st.out.take cap) { st with out := st.out.drop cap }
  else if st.fin then .eof
  else
    let rr := sourceRead 4096 st.src
    let buf := st.buf ++ rr.1
    let n := buf.length / blockSize * blockSize
    let fin := rr.2.2
    if n = 0 then
      if fin then .failed .unexpectedEOF
      else .served [] { st with src := rr.2.1, buf := buf, fin := fin }
    else
      let dr := cryptBlocksDec D st.prev (buf.take n)
      let dec := dr.1
      if fin then
        if dec.length < blockSize then .failed .shortFinalBlock
        else
          let padLen := dec.getLastD 0
          if padLen = 0 ∨ padLen > blockSize then .failed .padRange
          else if ¬ ((dec.drop (dec.length - padLen)).all fun b => b = padLen) then
            .failed .padContent
          else
            let dec2 := dec.take (dec.length - padLen)
            if dec2 = [] then .eof
            else .served (dec2.take cap)
              ⟨rr.2.1, dr.2, buf.drop n, dec2.drop cap, fin⟩
      else
        .served (dec.take cap) ⟨rr.2.1, dr.2, buf.drop n, dec.drop cap, fin⟩

/-- The outcome of driving the decrypter to completion. -/
inductive RunResult
  | done (plain : List Nat)
  | failed (servedSoFar : List Nat) (e : DecErr)
  | outOfFuel
deriving DecidableEq, Repr

/-- Repeatedly call `Read` (as `io.ReadAll` / `io.Copy` do), accumulating
the plaintext served, until EOF or an error. -/
def cbcRunReader (D : List Nat → List Nat) (cap : Nat) :
    Nat → CBCReaderState → List Nat → RunResult
  | 0, _, _ => .outOfFuel
  | fuel + 1, st, acc =>
    match cbcRead D cap st with
    | .eof => .done acc
    | .failed e => .failed acc e
    | .served b st2 => cbcRunReader D cap fuel st2 (acc ++ b)

/-- The initial decrypter state over a source, with the PBKDF2-derived IV. -/
def initReader (src : ByteSource) (iv : List Nat) : CBCReaderState :=
  ⟨src, iv, [], [], false⟩

/-- C1 at the failing input: the block function is instantiated with the
identity permutation (its own inverse) and a zero IV, so only the fully
modelled buffering logic is at stake.  Encrypting the five bytes `abcde`
yields one padded ciphertext block; when the source delivers that block in
one read and reports end-of-stream only on the following zero-byte read,
the decrypter does not defer the final block: it serves the padding bytes
as plaintext and then fails with `io.ErrUnexpectedEOF`, so the round trip
does not return the original bytes. -/
theorem claim_C1_roundtrip_fails_on_deferred_eof :
    cbcEncryptChunks id (List.replicate 16 0) [[97, 98, 99, 100, 101]]
        = [97, 98, 99, 100, 101] ++ List.replicate 11 11
      ∧ cbcRunReader id 4096 8
          (initReader
            ⟨[cbcEncryptChunks id (List.replicate 16 0) [[97, 98, 99, 100, 101]]], false⟩
            (List.replicate 16 0)) []
        = .failed ([97, 98, 99, 100, 101] ++ List.replicate 11 11) .unexpectedEOF
      ∧ cbcRunReader id 4096 8
          (initReader
            ⟨[cbcEncryptChunks id (List.replicate 16 0) [[97, 98, 99, 100, 101]]], false⟩
            (List.replicate 16 0)) []
        ≠ .done [97, 98, 99, 100, 101] := by decide

/-- The companion positive case: with the very same stream, the round trip
succeeds when the source reports end-of-stream together with the final
bytes — isolating the end-of-stream timing as the failure cause. -/
theorem cbcReader_roundtrip_when_eof_with_data :
    cbcRunReader id 4096 8
        (initReader
          ⟨[cbcEncryptChunks id (List.replicate 16 0) [[97, 98, 99, 100, 101]]], true⟩
          (List.replicate 16 0)) []
      = .done [97, 98, 99, 100, 101] := by decide

/-- C9 at the failing input: a stream whose ciphertext after header and
salt is one validly padded block followed by four stray bytes (20 bytes,
not a multiple of the block size), delivered together with end-of-stream.
The decrypter decrypts the block, strips its padding, silently drops the
four unprocessed bytes, and reports clean success instead of the
unexpected-end-of-stream error the claim requires. -/
theorem claim_C9_trailing_bytes_silently_accepted :
    cbcRunReader id 4096 8
        (initReader
          ⟨[cbcEncryptChunks id (List.replicate 16 0) [[97, 98, 99, 100, 101]] ++ [1, 2, 3, 4]],
            true⟩
          (List.replicate 16 0)) []
      = .done [97, 98, 99, 100, 101]
      ∧ (cbcEncryptChunks id (List.replicate 16 0) [[97, 98, 99, 100, 101]]
          ++ [1, 2, 3, 4]).length % blockSize ≠ 0 := by decide
